import Mathlib

/-!
Verification of the StockAIvo multi-tier cache reconciliation engine
(`stockaivo/data_service.py`, `stockaivo/cache_manager.py`,
`stockaivo/database_writer.py`) against its natural-language specification.

Modelling conventions:
* A point-key (calendar date / timestamp) is an `Int` day number; the weekday
  of day `d` is `d % 7` with `0 = Monday`, matching Python's
  `date.weekday()` arithmetic used by the source.
* A data point is a pair `(point-key, payload)`; the numeric OHLCV fields are
  collapsed into one opaque `Int` payload since the reconciliation logic never
  inspects them, only the point-key column.
* A pandas DataFrame of price rows is a `List Point` in row order.
* The NYSE trading calendar (external `pandas_market_calendars` input) is a
  parameter `cal : Int → Bool` deciding whether a day is a trading session.
* I/O collaborators (Redis, PostgreSQL, the AKShare provider) are oracle
  fields of an `Env` record; the Python functions fold their own failures
  into `None` returns (`_query_database`, `fetch_from_akshare` catch all
  exceptions), which is modelled by `Option`/`Except` results.
-/

/-- A data point: point-key (a calendar date encoded as an integer day
number) plus the (collapsed) numeric payload. -/
abbrev Point := Int × Int

/-- A series: list of points in row order (a pandas DataFrame). -/
abbrev Series := List Point

/-- The point-key column of a series. -/
def seriesKeys (s : Series) : List Int := s.map Prod.fst

/-- Comparison of points by point-key, the order `sort_values(by=date_col)`
sorts rows by. -/
def keyLE (p q : Point) : Prop := p.1 ≤ q.1

/-- Strict version of `keyLE`. -/
def keyLT (p q : Point) : Prop := p.1 < q.1

instance : DecidableRel keyLE := fun p q => inferInstanceAs (Decidable (p.1 ≤ q.1))

instance : DecidableRel keyLT := fun p q => inferInstanceAs (Decidable (p.1 < q.1))

instance : IsTotal Point keyLE := ⟨fun p q => le_total p.1 q.1⟩

instance : IsTrans Point keyLE := ⟨fun _ _ _ h₁ h₂ => le_trans h₁ h₂⟩

instance : IsTrans Point keyLT := ⟨fun _ _ _ h₁ h₂ => lt_trans h₁ h₂⟩

instance : IsAntisymm Point keyLT := ⟨fun _ _ h₁ h₂ => absurd h₂ (lt_asymm h₁)⟩

/-- The invariant of a canonical series: point-keys strictly increasing
(hence unique) in row order ("ordered, deduplicated sequence of Points"). -/
def SeriesOK (s : Series) : Prop := List.Chain' keyLT s

instance (s : Series) : Decidable (SeriesOK s) :=
  inferInstanceAs (Decidable (List.Chain' keyLT s))

/-- Linear scan behind `drop_duplicates(subset=[date_col])` with the default
`keep='first'`: keeps the first row carrying each point-key, in row order.
`seen` is the set of point-keys already emitted. -/
def dedupByKeyAux (seen : List Int) : Series → Series
  | [] => []
  | p :: rest =>
      if p.1 ∈ seen then dedupByKeyAux seen rest
      else p :: dedupByKeyAux (p.1 :: seen) rest

/-- `df.drop_duplicates(subset=[date_col])` (default `keep='first'`). -/
def dedupByKey (s : Series) : Series := dedupByKeyAux [] s

/-- The merge used at `data_service.py:225`, `:306` and `:937`:
`pd.concat([a, b]).drop_duplicates(subset=[date_col]).sort_values(by=date_col)`.
After deduplication the keys are unique, so any comparison sort by key gives
the canonical result; insertion sort stands in for pandas' `sort_values`. -/
def mergeSeries (a b : Series) : Series :=
  List.insertionSort keyLE (dedupByKey (a ++ b))

example : mergeSeries [(1, 10)] [(1, 20)] = [(1, 10)] := by decide
example : mergeSeries [(3, 1), (1, 2)] [(2, 5), (1, 9)] = [(1, 2), (2, 5), (3, 1)] := by
  decide
example : mergeSeries [(1, 1), (2, 2)] [(3, 3), (4, 4)] =
    [(1, 1), (2, 2), (3, 3), (4, 4)] := by decide

@[simp] theorem seriesKeys_nil : seriesKeys [] = [] := rfl

@[simp] theorem seriesKeys_cons (p : Point) (l : Series) :
    seriesKeys (p :: l) = p.1 :: seriesKeys l := rfl

theorem mem_seriesKeys_of_mem {p : Point} {l : Series} (h : p ∈ l) :
    p.1 ∈ seriesKeys l := List.mem_map_of_mem _ h

theorem SeriesOK.keysNodup {s : Series} (h : SeriesOK s) : (seriesKeys s).Nodup := by
  have hp : s.Pairwise keyLT := List.chain'_iff_pairwise.mp h
  have hm : (seriesKeys s).Pairwise (· < ·) := List.pairwise_map.mpr hp
  exact hm.imp ne_of_lt

theorem SeriesOK.sortedLE {s : Series} (h : SeriesOK s) : List.Sorted keyLE s := by
  have hp : s.Pairwise keyLT := List.chain'_iff_pairwise.mp h
  exact hp.imp le_of_lt

/-- The dedup scan only looks at the membership of `seen`, not its shape. -/
theorem dedupByKeyAux_congr {seen₁ seen₂ : List Int}
    (h : ∀ d, d ∈ seen₁ ↔ d ∈ seen₂) (l : Series) :
    dedupByKeyAux seen₁ l = dedupByKeyAux seen₂ l := by
  induction l generalizing seen₁ seen₂ with
  | nil => rfl
  | cons p rest ih =>
      simp only [dedupByKeyAux]
      by_cases hp : p.1 ∈ seen₁
      · rw [if_pos hp, if_pos ((h p.1).mp hp)]
        exact ih h
      · rw [if_neg hp, if_neg (fun hc => hp ((h p.1).mpr hc))]
        have harg : ∀ d, d ∈ p.1 :: seen₁ ↔ d ∈ p.1 :: seen₂ := by
          intro d
          simp only [List.mem_cons, h d]
        rw [ih harg]

/-- Splitting the dedup scan across an append. -/
theorem dedupByKeyAux_append (seen : List Int) (a b : Series) :
    dedupByKeyAux seen (a ++ b) =
      dedupByKeyAux seen a ++
        dedupByKeyAux (seriesKeys (dedupByKeyAux seen a) ++ seen) b := by
  induction a generalizing seen with
  | nil => simp [dedupByKeyAux]
  | cons p rest ih =>
      simp only [List.cons_append, dedupByKeyAux, List.append_eq]
      by_cases hp : p.1 ∈ seen
      · rw [if_pos hp, if_pos hp, ih]
      · rw [if_neg hp, if_neg hp, ih]
        simp only [seriesKeys_cons, List.cons_append]
        have harg : ∀ d,
            d ∈ seriesKeys (dedupByKeyAux (p.1 :: seen) rest) ++ p.1 :: seen ↔
              d ∈ p.1 :: (seriesKeys (dedupByKeyAux (p.1 :: seen) rest) ++ seen) := by
          intro d
          simp only [List.mem_append, List.mem_cons]
          tauto
        rw [dedupByKeyAux_congr harg]

/-- Rows whose keys are unique and unseen pass through the dedup scan. -/
theorem dedupByKeyAux_eq_self {seen : List Int} {l : Series}
    (hseen : ∀ p ∈ l, p.1 ∉ seen) (hnd : (seriesKeys l).Nodup) :
    dedupByKeyAux seen l = l := by
  induction l generalizing seen with
  | nil => rfl
  | cons p rest ih =>
      simp only [dedupByKeyAux]
      rw [if_neg (hseen p (List.mem_cons_self p rest))]
      have hnd' : (seriesKeys rest).Nodup := (List.nodup_cons.mp hnd).2
      have hp1 : p.1 ∉ seriesKeys rest := (List.nodup_cons.mp hnd).1
      have hseen' : ∀ q ∈ rest, q.1 ∉ p.1 :: seen := by
        intro q hq
        simp only [List.mem_cons]
        push_neg
        refine ⟨?_, hseen q (List.mem_cons_of_mem p hq)⟩
        intro he
        exact hp1 (he ▸ mem_seriesKeys_of_mem hq)
      rw [ih hseen' hnd']

/-- With unique keys, the dedup scan is a filter on unseen keys. -/
theorem dedupByKeyAux_eq_filter {seen : List Int} {l : Series}
    (hnd : (seriesKeys l).Nodup) :
    dedupByKeyAux seen l = l.filter (fun q => decide (q.1 ∉ seen)) := by
  induction l generalizing seen with
  | nil => rfl
  | cons p rest ih =>
      have hnd' : (seriesKeys rest).Nodup := (List.nodup_cons.mp hnd).2
      have hp1 : p.1 ∉ seriesKeys rest := (List.nodup_cons.mp hnd).1
      simp only [dedupByKeyAux, List.filter_cons]
      by_cases hp : p.1 ∈ seen
      · rw [if_pos hp, if_neg (show ¬((fun q : Point => decide (q.1 ∉ seen)) p = true) by
          simp [hp])]
        exact ih hnd'
      · rw [if_neg hp, if_pos (show (fun q : Point => decide (q.1 ∉ seen)) p = true by
          simp [hp])]
        rw [ih hnd']
        have : rest.filter (fun q => decide (q.1 ∉ p.1 :: seen)) =
            rest.filter (fun q => decide (q.1 ∉ seen)) := by
          apply List.filter_congr
          intro q hq
          have hne : q.1 ≠ p.1 := by
            intro he
            exact hp1 (he ▸ mem_seriesKeys_of_mem hq)
          simp [List.mem_cons, hne]
        rw [this]

/-- The dedup scan emits each key at most once, and never a seen key. -/
theorem dedupByKeyAux_keys (seen : List Int) (l : Series) :
    (seriesKeys (dedupByKeyAux seen l)).Nodup ∧
      ∀ d ∈ seriesKeys (dedupByKeyAux seen l), d ∉ seen := by
  induction l generalizing seen with
  | nil => exact ⟨List.nodup_nil, by simp [dedupByKeyAux]⟩
  | cons p rest ih =>
      simp only [dedupByKeyAux]
      by_cases hp : p.1 ∈ seen
      · rw [if_pos hp]
        exact ih seen
      · rw [if_neg hp]
        obtain ⟨hnd, hout⟩ := ih (p.1 :: seen)
        refine ⟨List.nodup_cons.mpr ⟨?_, hnd⟩, ?_⟩
        · intro hc
          exact (hout p.1 hc) (List.mem_cons_self p.1 seen)
        · intro d hd
          rcases List.mem_cons.mp hd with he | hd'
          · exact he ▸ hp
          · intro hc
            exact (hout d hd') (List.mem_cons_of_mem _ hc)

/-- Membership in a merge: the left (already-cached) argument always survives;
a right-argument row survives only when its key is new. This is the
`keep='first'` discipline of `drop_duplicates`. -/
theorem mem_mergeSeries {a b : Series} (ha : (seriesKeys a).Nodup)
    (hb : (seriesKeys b).Nodup) (p : Point) :
    p ∈ mergeSeries a b ↔ p ∈ a ∨ (p ∈ b ∧ p.1 ∉ seriesKeys a) := by
  unfold mergeSeries dedupByKey
  rw [(List.perm_insertionSort keyLE _).mem_iff]
  rw [dedupByKeyAux_append]
  rw [dedupByKeyAux_eq_self (by simp) ha]
  rw [dedupByKeyAux_eq_filter hb]
  simp [List.mem_filter]

/-- The merge result is always a canonical series: sorted by point-key with
unique keys. -/
theorem mergeSeries_ok (a b : Series) : SeriesOK (mergeSeries a b) := by
  have hs : List.Sorted keyLE (mergeSeries a b) := List.sorted_insertionSort keyLE _
  have hperm : (mergeSeries a b).Perm (dedupByKey (a ++ b)) :=
    List.perm_insertionSort keyLE _
  have hnd : (seriesKeys (mergeSeries a b)).Nodup :=
    ((hperm.map Prod.fst).nodup_iff).mpr (dedupByKeyAux_keys [] (a ++ b)).1
  have hne : (mergeSeries a b).Pairwise (fun p q => p.1 ≠ q.1) :=
    List.pairwise_map.mp hnd
  rw [SeriesOK, List.chain'_iff_pairwise]
  exact (List.Pairwise.and hs hne).imp (fun h => lt_of_le_of_ne h.1 h.2)

/-- Canonical series are extensional: equal membership forces equality. -/
theorem seriesOK_ext {l₁ l₂ : Series} (h₁ : SeriesOK l₁) (h₂ : SeriesOK l₂)
    (h : ∀ p, p ∈ l₁ ↔ p ∈ l₂) : l₁ = l₂ := by
  have hs₁ : List.Sorted keyLT l₁ := List.chain'_iff_pairwise.mp h₁
  have hs₂ : List.Sorted keyLT l₂ := List.chain'_iff_pairwise.mp h₂
  have hnd₁ : l₁.Nodup := List.Nodup.of_map Prod.fst h₁.keysNodup
  have hnd₂ : l₂.Nodup := List.Nodup.of_map Prod.fst h₂.keysNodup
  exact List.eq_of_perm_of_sorted ((List.perm_ext_iff_of_nodup hnd₁ hnd₂).mpr h) hs₁ hs₂

/-- Merging a canonical series with itself gives it back (idempotence). -/
theorem mergeSeries_self {a : Series} (ha : SeriesOK a) : mergeSeries a a = a := by
  unfold mergeSeries dedupByKey
  rw [dedupByKeyAux_append, dedupByKeyAux_eq_self (by simp) ha.keysNodup,
      dedupByKeyAux_eq_filter ha.keysNodup]
  have hfe : a.filter (fun q => decide (q.1 ∉ seriesKeys a ++ ([] : List Int))) = [] := by
    rw [List.filter_eq_nil_iff]
    intro q hq
    simp [mem_seriesKeys_of_mem hq]
  rw [hfe, List.append_nil]
  exact List.Sorted.insertionSort_eq ha.sortedLE

/-- The key set of a merge is the union of the key sets of its arguments. -/
theorem keys_mergeSeries {a b : Series} (ha : (seriesKeys a).Nodup)
    (hb : (seriesKeys b).Nodup) (d : Int) :
    d ∈ seriesKeys (mergeSeries a b) ↔ d ∈ seriesKeys a ∨ d ∈ seriesKeys b := by
  constructor
  · intro hd
    obtain ⟨p, hp, he⟩ := List.mem_map.mp hd
    rcases (mem_mergeSeries ha hb p).mp hp with h | ⟨h, _⟩
    · exact Or.inl (he ▸ mem_seriesKeys_of_mem h)
    · exact Or.inr (he ▸ mem_seriesKeys_of_mem h)
  · intro hd
    by_cases hda : d ∈ seriesKeys a
    · obtain ⟨p, hp, he⟩ := List.mem_map.mp hda
      exact he ▸ mem_seriesKeys_of_mem ((mem_mergeSeries ha hb p).mpr (Or.inl hp))
    · rcases hd with h | h
      · exact absurd h hda
      · obtain ⟨p, hp, he⟩ := List.mem_map.mp h
        refine he ▸ mem_seriesKeys_of_mem ((mem_mergeSeries ha hb p).mpr ?_)
        exact Or.inr ⟨hp, he ▸ hda⟩

/-- Merge is associative on canonical series. -/
theorem mergeSeries_assoc {a b c : Series} (ha : SeriesOK a) (hb : SeriesOK b)
    (hc : SeriesOK c) :
    mergeSeries (mergeSeries a b) c = mergeSeries a (mergeSeries b c) := by
  apply seriesOK_ext (mergeSeries_ok _ _) (mergeSeries_ok _ _)
  intro p
  rw [mem_mergeSeries (mergeSeries_ok a b).keysNodup hc.keysNodup,
      mem_mergeSeries ha.keysNodup hb.keysNodup,
      mem_mergeSeries ha.keysNodup (mergeSeries_ok b c).keysNodup,
      mem_mergeSeries hb.keysNodup hc.keysNodup,
      keys_mergeSeries ha.keysNodup hb.keysNodup]
  tauto

/-- Merge is commutative when the two series share no point-key. -/
theorem mergeSeries_comm_of_disjoint {a b : Series} (ha : SeriesOK a)
    (hb : SeriesOK b) (hd : ∀ d, d ∈ seriesKeys a → d ∉ seriesKeys b) :
    mergeSeries a b = mergeSeries b a := by
  apply seriesOK_ext (mergeSeries_ok _ _) (mergeSeries_ok _ _)
  intro p
  rw [mem_mergeSeries ha.keysNodup hb.keysNodup,
      mem_mergeSeries hb.keysNodup ha.keysNodup]
  constructor
  · rintro (h | ⟨h, _⟩)
    · exact Or.inr ⟨h, fun hc => hd p.1 (mem_seriesKeys_of_mem h) hc⟩
    · exact Or.inl h
  · rintro (h | ⟨h, _⟩)
    · refine Or.inr ⟨h, fun hc => hd p.1 hc (mem_seriesKeys_of_mem h)⟩
    · exact Or.inl h

/-- The gap-scan state machine inside `_find_missing_date_ranges`
(data_service.py:756-777). The open gap is carried as
`(start_of_current_range, previous required key)`; the `[]` cases play the
role of the Python `None` sentinel appended to the required list. While a gap
is open, every scanned key was absent from the cached set, so the second
component always equals the previous (absent) required key, exactly the
`extended_dates[i-1]` the Python emits when it closes a gap. -/
def gapScan (cachedSet : List Int) :
    List Int → Option (Int × Int) → List (Int × Int)
  | [], none => []
  | [], some g => [g]
  | d :: rest, none =>
      if d ∈ cachedSet then gapScan cachedSet rest none
      else gapScan cachedSet rest (some (d, d))
  | d :: rest, some g =>
      if d ∈ cachedSet then g :: gapScan cachedSet rest none
      else gapScan cachedSet rest (some (g.1, d))

/-- `_find_missing_date_ranges(required_dates, cached_dates, market_aware_date)`
(data_service.py:741-796): scan for contiguous runs of required dates absent
from the cached collection, then clip: a raw gap whose start exceeds the
market-aware date is dropped, and every surviving gap's end is truncated to
`min(end, market_aware_date)`. -/
def _find_missing_date_ranges (required cached : List Int) (marketDate : Int) :
    List (Int × Int) :=
  if required = [] then []
  else
    let raw := gapScan cached required none
    if raw = [] then []
    else
      (raw.filter (fun r => decide (r.1 ≤ marketDate))).map
        (fun r => (r.1, min r.2 marketDate))

example : _find_missing_date_ranges [1, 2, 3, 4, 5] [1, 4] 5 = [(2, 3), (5, 5)] := by
  decide
example : _find_missing_date_ranges [1, 2, 3, 4, 5] [1, 4] 2 = [(2, 2)] := by decide
example : _find_missing_date_ranges [3, 1] [] 10 = [(3, 1)] := by decide
example : _find_missing_date_ranges [1, 3] [] 10 = [(1, 3)] := by decide

/-- `d` lies inside one of the closed ranges of `R`. -/
def coveredBy (R : List (Int × Int)) (d : Int) : Prop :=
  ∃ r ∈ R, r.1 ≤ d ∧ d ≤ r.2

/-- What the gap scan guarantees when started with no open gap. -/
def GapScanNoneOK (cached l : List Int) : Prop :=
  (∀ r ∈ gapScan cached l none, r.1 ≤ r.2) ∧
  (gapScan cached l none).Pairwise (fun r₁ r₂ => r₁.2 < r₂.1) ∧
  (∀ d ∈ l, d ∉ cached → coveredBy (gapScan cached l none) d) ∧
  (∀ r ∈ gapScan cached l none, ∀ d ∈ l, r.1 ≤ d → d ≤ r.2 → d ∉ cached) ∧
  (∀ r ∈ gapScan cached l none, ∃ x ∈ l, r.1 = x)

/-- What the gap scan guarantees when started with an open gap `(s, e)`
whose recorded end `e` precedes every remaining required key. -/
def GapScanSomeOK (cached l : List Int) : Prop :=
  ∀ s e : Int, s ≤ e → (∀ x ∈ l, e < x) →
    ∃ e' R', gapScan cached l (some (s, e)) = (s, e') :: R' ∧
      e ≤ e' ∧
      ((s, e') :: R').Pairwise (fun r₁ r₂ => r₁.2 < r₂.1) ∧
      (∀ r ∈ R', r.1 ≤ r.2) ∧
      (∀ x ∈ l, x ∉ cached → coveredBy ((s, e') :: R') x) ∧
      (∀ r ∈ (s, e') :: R', ∀ x ∈ l, r.1 ≤ x → x ≤ r.2 → x ∉ cached) ∧
      (∀ r ∈ R', ∃ x ∈ l, r.1 = x)

/-- Invariant of the gap scan over a strictly sorted required list: ranges are
well-formed, pairwise disjoint and sorted, they cover exactly the required
keys absent from the cached set, and each range start is a required key. -/
theorem gapScan_invariant (cached : List Int) (l : List Int)
    (hch : l.Chain' (· < ·)) : GapScanNoneOK cached l ∧ GapScanSomeOK cached l := by
  induction l with
  | nil =>
      refine ⟨⟨?_, ?_, ?_, ?_, ?_⟩, ?_⟩
      · intro r hr; simp [gapScan] at hr
      · simp [gapScan]
      · intro d hd _; simp at hd
      · intro r hr; simp [gapScan] at hr
      · intro r hr; simp [gapScan] at hr
      · intro s e hse _
        refine ⟨e, [], rfl, le_refl e, ?_, ?_, ?_, ?_, ?_⟩
        · simp
        · intro r hr; simp at hr
        · intro x hx; simp at hx
        · intro r _ x hx; simp at hx
        · intro r hr; simp at hr
  | cons d rest ih =>
      have hpw' : (d :: rest).Pairwise (· < ·) := List.chain'_iff_pairwise.mp hch
      have hdlt : ∀ x ∈ rest, d < x := (List.pairwise_cons.mp hpw').1
      have hch' : rest.Chain' (· < ·) := hch.tail
      obtain ⟨⟨hN1, hN2, hN3, hN4, hN5⟩, ihS⟩ := ih hch'
      constructor
      · by_cases hd : d ∈ cached
        · have heq : gapScan cached (d :: rest) none = gapScan cached rest none := by
            simp [gapScan, hd]
          refine ⟨?_, ?_, ?_, ?_, ?_⟩ <;> rw [heq]
          · exact hN1
          · exact hN2
          · intro x hx hxc
            rcases List.mem_cons.mp hx with he | hx'
            · exact absurd (he ▸ hd) hxc
            · exact hN3 x hx' hxc
          · intro r hr x hx h1 h2
            rcases List.mem_cons.mp hx with he | hx'
            · obtain ⟨y, hy, hry⟩ := hN5 r hr
              subst he
              exact absurd h1 (not_le.mpr (hry ▸ hdlt y hy))
            · exact hN4 r hr x hx' h1 h2
          · intro r hr
            obtain ⟨y, hy, hry⟩ := hN5 r hr
            exact ⟨y, List.mem_cons_of_mem d hy, hry⟩
        · have heq : gapScan cached (d :: rest) none =
              gapScan cached rest (some (d, d)) := by simp [gapScan, hd]
          obtain ⟨e', R', hseq, hee, hpw, hR1, hcov, hsound, hstarts⟩ :=
            ihS d d (le_refl d) hdlt
          refine ⟨?_, ?_, ?_, ?_, ?_⟩ <;> rw [heq, hseq]
          · intro r hr
            rcases List.mem_cons.mp hr with he | hr'
            · subst he; exact hee
            · exact hR1 r hr'
          · exact hpw
          · intro x hx hxc
            rcases List.mem_cons.mp hx with he | hx'
            · exact ⟨(d, e'), List.mem_cons_self _ _, by subst he; exact ⟨le_refl _, hee⟩⟩
            · exact hcov x hx' hxc
          · intro r hr x hx h1 h2
            rcases List.mem_cons.mp hx with he | hx'
            · subst he; exact hd
            · exact hsound r hr x hx' h1 h2
          · intro r hr
            rcases List.mem_cons.mp hr with he | hr'
            · exact ⟨d, List.mem_cons_self _ _, by subst he; rfl⟩
            · obtain ⟨y, hy, hry⟩ := hstarts r hr'
              exact ⟨y, List.mem_cons_of_mem d hy, hry⟩
      · intro s e hse hlt
        have hdgt : e < d := hlt d (List.mem_cons_self d rest)
        by_cases hd : d ∈ cached
        · have heq : gapScan cached (d :: rest) (some (s, e)) =
              (s, e) :: gapScan cached rest none := by simp [gapScan, hd]
          refine ⟨e, gapScan cached rest none, heq, le_refl e, ?_, hN1, ?_, ?_, ?_⟩
          · rw [List.pairwise_cons]
            refine ⟨?_, hN2⟩
            intro r hr
            obtain ⟨y, hy, hry⟩ := hN5 r hr
            exact hry ▸ hlt y (List.mem_cons_of_mem d hy)
          · intro x hx hxc
            rcases List.mem_cons.mp hx with he | hx'
            · exact absurd (he ▸ hd) hxc
            · obtain ⟨r, hr, h⟩ := hN3 x hx' hxc
              exact ⟨r, List.mem_cons_of_mem _ hr, h⟩
          · intro r hr x hx h1 h2
            rcases List.mem_cons.mp hr with hre | hr'
            · subst hre
              exact absurd h2 (not_le.mpr (hlt x hx))
            · rcases List.mem_cons.mp hx with he | hx'
              · obtain ⟨y, hy, hry⟩ := hN5 r hr'
                subst he
                exact absurd h1 (not_le.mpr (hry ▸ hdlt y hy))
              · exact hN4 r hr' x hx' h1 h2
          · intro r hr
            obtain ⟨y, hy, hry⟩ := hN5 r hr
            exact ⟨y, List.mem_cons_of_mem d hy, hry⟩
        · have heq : gapScan cached (d :: rest) (some (s, e)) =
              gapScan cached rest (some (s, d)) := by simp [gapScan, hd]
          obtain ⟨e', R', hseq, hde, hpw, hR1, hcov, hsound, hstarts⟩ :=
            ihS s d (le_trans hse (le_of_lt hdgt)) hdlt
          refine ⟨e', R', heq.trans hseq, le_trans (le_of_lt hdgt) hde, hpw, hR1,
            ?_, ?_, ?_⟩
          · intro x hx hxc
            rcases List.mem_cons.mp hx with he | hx'
            · subst he
              exact ⟨(s, e'), List.mem_cons_self _ _,
                le_trans hse (le_of_lt hdgt), hde⟩
            · exact hcov x hx' hxc
          · intro r hr x hx h1 h2
            rcases List.mem_cons.mp hx with he | hx'
            · subst he; exact hd
            · exact hsound r hr x hx' h1 h2
          · intro r hr
            obtain ⟨y, hy, hry⟩ := hstarts r hr
            exact ⟨y, List.mem_cons_of_mem d hy, hry⟩

/-- C1: For every sorted, duplicate-free required point-key list, every
observed point-key collection, and every safe-as-of date, the missing-range
detector returns intervals that are pairwise disjoint and sorted ascending;
each interval's end is clipped to the safe-as-of date (intervals starting
past it are dropped); and a required key ≤ the safe-as-of date is either
observed or covered by an interval, while every required key covered by an
interval is unobserved and ≤ the safe-as-of date — so the union of the
covered required keys with the observed ones is exactly the required set
restricted to keys ≤ the safe-as-of date. In particular required =
[Jan 1..Jan 5], observed = {Jan 1, Jan 4}, safe-as-of = Jan 5 yields exactly
[(Jan 2, Jan 3), (Jan 5, Jan 5)]. -/
theorem C1_missing_ranges (required observed : List Int) (safe : Int)
    (hreq : required.Chain' (· < ·)) :
    (∀ r ∈ _find_missing_date_ranges required observed safe,
      r.1 ≤ r.2 ∧ r.2 ≤ safe) ∧
    (_find_missing_date_ranges required observed safe).Pairwise
      (fun r₁ r₂ => r₁.2 < r₂.1) ∧
    (∀ d ∈ required, d ≤ safe →
      d ∈ observed ∨ coveredBy (_find_missing_date_ranges required observed safe) d) ∧
    (∀ r ∈ _find_missing_date_ranges required observed safe, ∀ d ∈ required,
      r.1 ≤ d → d ≤ r.2 → d ∉ observed ∧ d ≤ safe) ∧
    _find_missing_date_ranges [1, 2, 3, 4, 5] [1, 4] 5 = [(2, 3), (5, 5)] := by
  obtain ⟨hA1, hA2, hA3, hA4, hA5⟩ := (gapScan_invariant observed required hreq).1
  by_cases h0 : required = []
  · subst h0
    refine ⟨?_, ?_, ?_, ?_, by decide⟩
    · intro r hr; simp [_find_missing_date_ranges] at hr
    · simp [_find_missing_date_ranges]
    · intro d hd; simp at hd
    · intro r hr; simp [_find_missing_date_ranges] at hr
  · have hmain : _find_missing_date_ranges required observed safe =
        if gapScan observed required none = [] then []
        else ((gapScan observed required none).filter
            (fun r => decide (r.1 ≤ safe))).map (fun r => (r.1, min r.2 safe)) := by
      simp [_find_missing_date_ranges, h0]
    by_cases hraw : gapScan observed required none = []
    · rw [hmain, if_pos hraw]
      refine ⟨?_, ?_, ?_, ?_, by decide⟩
      · intro r hr; simp at hr
      · simp
      · intro d hd hds
        by_cases hdo : d ∈ observed
        · exact Or.inl hdo
        · exfalso
          obtain ⟨r, hr, -⟩ := hA3 d hd hdo
          rw [hraw] at hr
          simp at hr
      · intro r hr; simp at hr
    · rw [hmain, if_neg hraw]
      refine ⟨?_, ?_, ?_, ?_, by decide⟩
      · intro r hr
        obtain ⟨r₀, hr₀, he⟩ := List.mem_map.mp hr
        obtain ⟨hr₀raw, hr₀le⟩ := List.mem_filter.mp hr₀
        subst he
        exact ⟨le_min (hA1 r₀ hr₀raw) (by simpa using hr₀le), min_le_right _ _⟩
      · refine List.pairwise_map.mpr (List.Pairwise.imp ?_ (hA2.filter _))
        intro a b hab
        exact lt_of_le_of_lt (min_le_left _ _) hab
      · intro d hd hds
        by_cases hdo : d ∈ observed
        · exact Or.inl hdo
        · obtain ⟨r, hr, h1, h2⟩ := hA3 d hd hdo
          refine Or.inr ⟨(r.1, min r.2 safe), List.mem_map_of_mem _
            (List.mem_filter.mpr ⟨hr, by simpa using le_trans h1 hds⟩),
            h1, le_min h2 hds⟩
      · intro r hr d hd h1 h2
        obtain ⟨r₀, hr₀, he⟩ := List.mem_map.mp hr
        obtain ⟨hr₀raw, -⟩ := List.mem_filter.mp hr₀
        subst he
        exact ⟨hA4 r₀ hr₀raw d hd h1 (le_trans h2 (min_le_left _ _)),
          le_trans h2 (min_le_right _ _)⟩

theorem C1_missing_ranges_witness :
    ([1, 2, 3, 4, 5] : List Int).Chain' (· < ·) ∧
      _find_missing_date_ranges [1, 2, 3, 4, 5] [1, 4] 5 = [(2, 3), (5, 5)] :=
  ⟨by norm_num [List.chain'_cons],
    (C1_missing_ranges [1, 2, 3, 4, 5] [1, 4] 5
      (by norm_num [List.chain'_cons])).2.2.2.2⟩

/-- C7 counterexample: the detector does not sort defensively. On the
unsorted required list [3, 1] (nothing cached, safe-as-of 10) it emits the
inverted range (3, 1), while the sorted version [1, 3] yields (1, 3), so the
outputs differ. -/
theorem C7_counterexample :
    List.insertionSort (· ≤ ·) [(3 : Int), 1] = [1, 3] ∧
      _find_missing_date_ranges [3, 1] [] 10 ≠
        _find_missing_date_ranges (List.insertionSort (· ≤ ·) [(3 : Int), 1]) [] 10 := by
  decide

/-- C7 (amended): `_find_missing_date_ranges` performs no defensive sort; it
processes the required list in the order given (its callers pass the sorted
output of `_get_required_dates`). Only when the required list is already
sorted does its output agree with the output on the sorted version of the
list. -/
theorem C7_sorted_agreement (required cached : List Int) (safe : Int)
    (h : required.Sorted (· ≤ ·)) :
    _find_missing_date_ranges required cached safe =
      _find_missing_date_ranges (List.insertionSort (· ≤ ·) required) cached safe := by
  rw [List.Sorted.insertionSort_eq h]

theorem C7_sorted_agreement_witness :
    ([1, 3] : List Int).Sorted (· ≤ ·) ∧
      _find_missing_date_ranges [1, 3] [] 10 =
        _find_missing_date_ranges (List.insertionSort (· ≤ ·) [(1 : Int), 3]) [] 10 :=
  ⟨by decide, C7_sorted_agreement [1, 3] [] 10 (by decide)⟩

/-- C2 counterexample: on a point-key conflict the merge keeps the
previously-cached (first-argument) value, not the most recently fetched one
— `drop_duplicates` is called with its default `keep='first'` — and content
commutativity therefore fails on conflicting fragments. -/
theorem C2_counterexample :
    mergeSeries [(1, 10)] [(1, 20)] = [(1, 10)] ∧
      (1, 20) ∉ mergeSeries [(1, 10)] [(1, 20)] ∧
      mergeSeries [(1, 10)] [(1, 20)] ≠ mergeSeries [(1, 20)] [(1, 10)] := by
  decide

/-- C2 (amended): the merge deduplicates by point-key keeping the
first-encountered (earlier-argument, i.e. previously cached) value on
conflict and sorts ascending by point-key; on canonical series it is
idempotent and associative; the point-key set of the result is the union of
the inputs' key sets and thus independent of arrival order; and the merge is
commutative whenever the fragments share no point-key. -/
theorem C2_merge_algebra {a b c : Series} (ha : SeriesOK a) (hb : SeriesOK b)
    (hc : SeriesOK c) :
    mergeSeries a a = a ∧
    (∀ p : Point, p ∈ mergeSeries a b ↔ p ∈ a ∨ (p ∈ b ∧ p.1 ∉ seriesKeys a)) ∧
    SeriesOK (mergeSeries a b) ∧
    (∀ d : Int, d ∈ seriesKeys (mergeSeries a b) ↔
      d ∈ seriesKeys (mergeSeries b a)) ∧
    mergeSeries (mergeSeries a b) c = mergeSeries a (mergeSeries b c) ∧
    ((∀ d ∈ seriesKeys a, d ∉ seriesKeys b) → mergeSeries a b = mergeSeries b a) := by
  refine ⟨mergeSeries_self ha, mem_mergeSeries ha.keysNodup hb.keysNodup,
    mergeSeries_ok a b, ?_, mergeSeries_assoc ha hb hc,
    mergeSeries_comm_of_disjoint ha hb⟩
  intro d
  rw [keys_mergeSeries ha.keysNodup hb.keysNodup,
    keys_mergeSeries hb.keysNodup ha.keysNodup]
  exact or_comm

theorem C2_merge_algebra_witness :
    mergeSeries [((1 : Int), (10 : Int)), (2, 20)] [(1, 10), (2, 20)] =
      [(1, 10), (2, 20)] := by
  have h : SeriesOK [((1 : Int), (10 : Int)), (2, 20)] := by
    norm_num [SeriesOK, List.chain'_cons, keyLT]
  exact (C2_merge_algebra h h h).1

/-- Cache namespaces used by `CacheManager.save_to_redis`. -/
inductive CacheNS
  | general
  | pendingSave
deriving DecidableEq, Repr

/-- TTL (seconds) chosen by `CacheManager.save_to_redis`
(cache_manager.py:186-200) for price-series keys: pending-save entries get
24 hours, general-cache entries 1 hour (the 30-minute news TTL concerns the
out-of-scope news path). -/
def saveTTL : CacheNS → Nat
  | CacheNS.pendingSave => 86400
  | CacheNS.general => 3600

/-- `CacheManager.save_to_redis` (cache_manager.py:165-226): refuses empty
frames (warns and returns None without writing), otherwise `setex`-writes the
serialized frame with a fresh namespace-dependent TTL and returns the key;
modelled as the namespace plus the TTL written with it. -/
def save_to_redis (ns : CacheNS) (data : Series) : Option (CacheNS × Nat) :=
  if data = [] then none else some (ns, saveTTL ns)

/-- The frame `_append_to_pending_save` (data_service.py:915-947) writes
back: the currently buffered frame (when present and non-empty) merged with
the new fragment, else the fragment alone. -/
def pendingCombined (existing : Option Series) (newData : Series) : Series :=
  match existing with
  | some ex => if ex = [] then newData else mergeSeries ex newData
  | none => newData

/-- `_append_to_pending_save(ticker, period, new_data)`: read the buffered
series, merge the fragment in, write the result back to the PENDING_SAVE
namespace. Returns what is written and with which TTL (`none` when nothing
is written: empty fragment, or the write was refused). -/
def _append_to_pending_save (existing : Option Series) (newData : Series) :
    Option (Series × Nat) :=
  if newData = [] then none
  else
    match save_to_redis CacheNS.pendingSave (pendingCombined existing newData) with
    | some (_, ttl) => some (pendingCombined existing newData, ttl)
    | none => none

/-- C8: appending a non-empty fragment to a non-empty write-behind buffer
entry merges the fragment into the buffered series and writes the result
back with a refreshed 24-hour TTL; afterwards the buffer holds every
previously-buffered point unchanged plus every fragment point whose key was
new, deduplicated by point-key and sorted. Scenario: buffer Jan 1-2 plus
fragment Jan 3-4 leaves exactly Jan 1-4 with TTL 86400 s. -/
theorem C8_append_pending (ex frag : Series) (hex : SeriesOK ex)
    (hfrag : SeriesOK frag) (hexne : ex ≠ []) (hfragne : frag ≠ []) :
    _append_to_pending_save (some ex) frag = some (mergeSeries ex frag, 86400) ∧
    (∀ p ∈ ex, p ∈ mergeSeries ex frag) ∧
    (∀ d : Int, d ∈ seriesKeys (mergeSeries ex frag) ↔
      d ∈ seriesKeys ex ∨ d ∈ seriesKeys frag) ∧
    SeriesOK (mergeSeries ex frag) ∧
    _append_to_pending_save (some [(1, 1), (2, 2)]) [(3, 3), (4, 4)] =
      some ([(1, 1), (2, 2), (3, 3), (4, 4)], 86400) := by
  have hmem : ∀ p ∈ ex, p ∈ mergeSeries ex frag := fun p hp =>
    (mem_mergeSeries hex.keysNodup hfrag.keysNodup p).mpr (Or.inl hp)
  have hne : mergeSeries ex frag ≠ [] := by
    obtain ⟨p, hp⟩ := List.exists_mem_of_ne_nil ex hexne
    exact List.ne_nil_of_mem (hmem p hp)
  refine ⟨?_, hmem, keys_mergeSeries hex.keysNodup hfrag.keysNodup,
    mergeSeries_ok ex frag, by decide⟩
  have hcomb : pendingCombined (some ex) frag = mergeSeries ex frag := by
    simp [pendingCombined, hexne]
  rw [_append_to_pending_save, if_neg hfragne, hcomb, save_to_redis, if_neg hne]
  rfl

theorem C8_append_pending_witness :
    _append_to_pending_save (some [(1, 1), (2, 2)]) [(3, 3), (4, 4)] =
      some ([(1, 1), (2, 2), (3, 3), (4, 4)], 86400) := by
  have h1 : SeriesOK [((1 : Int), (1 : Int)), (2, 2)] := by
    norm_num [SeriesOK, List.chain'_cons, keyLT]
  have h2 : SeriesOK [((3 : Int), (3 : Int)), (4, 4)] := by
    norm_num [SeriesOK, List.chain'_cons, keyLT]
  exact (C8_append_pending [(1, 1), (2, 2)] [(3, 3), (4, 4)] h1 h2
    (by decide) (by decide)).2.2.2.2

/-- `get_market_aware_current_date` (data_service.py:372-516). The try-body
depends on wall-clock time and the external NYSE calendar (today's schedule,
open state, close-time buffer checks), so it is passed in as a computation
that either yields a safe date or raises; the function's outermost exception
handler — the code this model captures — returns `date.today()`, the current
local date, on any failure (data_service.py:514-516). -/
def get_market_aware_current_date (body : Except Unit Int) (today : Int) : Int :=
  match body with
  | Except.ok d => d
  | Except.error _ => today

/-- C6 counterexample: when the calendar computation fails with today = day
10, the clock returns day 10 itself, not day 9 (= yesterday) as the claim
states. -/
theorem C6_counterexample :
    get_market_aware_current_date (Except.error ()) 10 = 10 ∧
      get_market_aware_current_date (Except.error ()) 10 ≠ 10 - 1 := by decide

/-- C6 (amended): whenever the market-aware clock's calendar computation
fails, the clock falls back to the current local date (`date.today()`) — 
today, not the day before. -/
theorem C6_failure_fallback (today : Int) (e : Unit) :
    get_market_aware_current_date (Except.error e) today = today := rfl

/-- A write-behind buffer key: one (ticker, period) pending entry. -/
abbrev FlushKey := Nat

/-- Result state of `DatabaseWriter.persist_pending_data`
(database_writer.py:236-353): processed row and failure counts, the keys
marked for clearing, and the durable rows committed (per key, one
transaction each). -/
structure FlushState where
  processedCount : Nat
  failedCount : Nat
  processedKeys : List FlushKey
  dbCommitted : List (FlushKey × Nat)
deriving DecidableEq, Repr

/-- Per-entry loop of `persist_pending_data` (database_writer.py:269-327):
each pending entry is prepared and upserted inside its own transaction
(`with db.begin()`); `upsert k` yields that key's processed row count or
raises. On success the rows commit and the key is marked for clearing; on
failure only that key's transaction is rolled back (`db.rollback()`), the
failure is recorded, and the loop continues with the next key. -/
def persistLoop (upsert : FlushKey → Except Unit Nat) :
    List FlushKey → FlushState → FlushState
  | [], st => st
  | k :: rest, st =>
      match upsert k with
      | Except.ok rows =>
          persistLoop upsert rest
            { processedCount := st.processedCount + rows
              failedCount := st.failedCount
              processedKeys := st.processedKeys ++ [k]
              dbCommitted := st.dbCommitted ++ [(k, rows)] }
      | Except.error _ =>
          persistLoop upsert rest
            { processedCount := st.processedCount
              failedCount := st.failedCount + 1
              processedKeys := st.processedKeys
              dbCommitted := st.dbCommitted }

/-- `persist_pending_data` over the pending keys, then the clearing pass
(database_writer.py:332-341): each successfully processed key's buffer entry
is cleared (the per-key Redis delete is modelled as succeeding). Returns the
final state and the buffer contents left after clearing. -/
def persist_pending_data (upsert : FlushKey → Except Unit Nat)
    (pending : List FlushKey) : FlushState × List FlushKey :=
  (persistLoop upsert pending ⟨0, 0, [], []⟩,
    pending.filter (fun k =>
      decide (k ∉ (persistLoop upsert pending ⟨0, 0, [], []⟩).processedKeys)))

/-- `true` iff the upsert of this key succeeds. -/
def upsertOk (upsert : FlushKey → Except Unit Nat) (k : FlushKey) : Bool :=
  match upsert k with
  | Except.ok _ => true
  | Except.error _ => false

theorem persistLoop_spec (upsert : FlushKey → Except Unit Nat)
    (pending : List FlushKey) (st : FlushState) :
    (persistLoop upsert pending st).processedKeys =
        st.processedKeys ++ pending.filter (upsertOk upsert) ∧
    (persistLoop upsert pending st).dbCommitted.map Prod.fst =
        st.dbCommitted.map Prod.fst ++ pending.filter (upsertOk upsert) ∧
    (persistLoop upsert pending st).failedCount =
        st.failedCount + (pending.filter (fun k => !(upsertOk upsert k))).length := by
  induction pending generalizing st with
  | nil => simp [persistLoop]
  | cons k rest ih =>
      cases hk : upsert k with
      | ok rows =>
          have hok : upsertOk upsert k = true := by simp [upsertOk, hk]
          obtain ⟨i1, i2, i3⟩ := ih
            { processedCount := st.processedCount + rows
              failedCount := st.failedCount
              processedKeys := st.processedKeys ++ [k]
              dbCommitted := st.dbCommitted ++ [(k, rows)] }
          refine ⟨?_, ?_, ?_⟩
          · simp only [persistLoop, hk]
            rw [i1]
            simp [List.filter_cons, hok, List.append_assoc]
          · simp only [persistLoop, hk]
            rw [i2]
            simp [List.filter_cons, hok, List.map_append, List.append_assoc]
          · simp only [persistLoop, hk]
            rw [i3]
            simp [List.filter_cons, hok]
      | error e =>
          have hok : upsertOk upsert k = false := by simp [upsertOk, hk]
          obtain ⟨i1, i2, i3⟩ := ih
            { processedCount := st.processedCount
              failedCount := st.failedCount + 1
              processedKeys := st.processedKeys
              dbCommitted := st.dbCommitted }
          refine ⟨?_, ?_, ?_⟩
          · simp only [persistLoop, hk]
            rw [i1]
            simp [List.filter_cons, hok]
          · simp only [persistLoop, hk]
            rw [i2]
            simp [List.filter_cons, hok]
          · simp only [persistLoop, hk]
            rw [i3]
            simp [List.filter_cons, hok]
            try omega

/-- C9: during a background flush over any buffered keys, every key is
attempted in its own transaction; the keys whose rows commit durably are
exactly the successful ones (a failed key's transaction contributes no rows,
i.e. is rolled back in isolation), each failure is recorded, and failures do
not stop later keys from being processed; afterwards exactly the
successfully persisted keys have their buffer entries cleared while every
failed key's entry is left in place. -/
theorem C9_flush_isolation (upsert : FlushKey → Except Unit Nat)
    (pending : List FlushKey) :
    (persist_pending_data upsert pending).1.processedKeys =
        pending.filter (upsertOk upsert) ∧
    (persist_pending_data upsert pending).1.dbCommitted.map Prod.fst =
        pending.filter (upsertOk upsert) ∧
    (persist_pending_data upsert pending).1.failedCount =
        (pending.filter (fun k => !(upsertOk upsert k))).length ∧
    (persist_pending_data upsert pending).2 =
        pending.filter (fun k => !(upsertOk upsert k)) := by
  obtain ⟨h1, h2, h3⟩ := persistLoop_spec upsert pending ⟨0, 0, [], []⟩
  have h1' : (persistLoop upsert pending ⟨0, 0, [], []⟩).processedKeys =
      pending.filter (upsertOk upsert) := by simpa using h1
  refine ⟨h1', by simpa using h2, by simpa using h3, ?_⟩
  show pending.filter (fun k =>
      decide (k ∉ (persistLoop upsert pending ⟨0, 0, [], []⟩).processedKeys)) =
    pending.filter (fun k => !(upsertOk upsert k))
  simp only [h1']
  apply List.filter_congr
  intro k hk
  by_cases hkk : upsertOk upsert k = true
  · simp [List.mem_filter, hk, hkk]
  · simp only [Bool.not_eq_true] at hkk
    simp [List.mem_filter, hkk]

/-- The data periods accepted by the service (`PeriodType`,
data_service.py:31). -/
inductive Period
  | daily
  | weekly
  | hourly
deriving DecidableEq, Repr

/-- Monday of the week containing `d`: Python's
`trading_day - timedelta(days=trading_day.weekday())`, with day numbers
chosen so that `d % 7 = 0` means Monday. -/
def weekMonday (d : Int) : Int := d - d % (7 : Int)

/-- The `n` consecutive days starting at `s`, ascending. -/
def daysFrom (s : Int) : Nat → List Int
  | 0 => []
  | n + 1 => s :: daysFrom (s + 1) n

/-- The NYSE schedule restricted to `[s, e]`
(`nyse.schedule(start_date=s, end_date=e)`): the calendar's trading days
between `s` and `e`, ascending. -/
def tradingDaysIn (cal : Int → Bool) (s e : Int) : List Int :=
  (daysFrom s (e + 1 - s).toNat).filter cal

/-- The by-week fold of `_get_required_dates`'s weekly branch
(data_service.py:684-708): walk the trading days in order, tracking the
current week's Monday and that week's last trading day seen so far; emit the
tracked day when a new week starts, and flush the final week at the end. -/
def weeklyGroup : List Int → Option (Int × Int) → List Int
  | [], none => []
  | [], some g => [g.2]
  | d :: rest, none => weeklyGroup rest (some (weekMonday d, d))
  | d :: rest, some g =>
      if weekMonday d ≠ g.1 then g.2 :: weeklyGroup rest (some (weekMonday d, d))
      else weeklyGroup rest (some (g.1, d))

/-- `_get_required_dates(period, start, end)` (data_service.py:646-739): the
calendar-derived required point keys. A missing date gives `[]` (line 651);
`start > end` gives `[]` (line 660); daily gives every trading day in range,
sorted; weekly gives the last trading day of each week of the in-range
schedule, filtered to `[start, end]` and sorted; hourly does no date-point
bookkeeping and yields `[]` (line 739). The external calendar is the
parameter `cal`, total here, so the `mcal`-failure fallback branch
(line 728) is unreachable. -/
def _get_required_dates (cal : Int → Bool) (period : Period)
    (sd ed : Option Int) : List Int :=
  match sd, ed with
  | some s, some e =>
      if s > e then []
      else
        match period with
        | Period.daily => List.insertionSort (· ≤ ·) (tradingDaysIn cal s e)
        | Period.weekly =>
            List.insertionSort (· ≤ ·)
              ((weeklyGroup (tradingDaysIn cal s e) none).filter
                (fun w => decide (s ≤ w) && decide (w ≤ e)))
        | Period.hourly => []
  | _, _ => []

example :
    _get_required_dates (fun d => decide (7 ≤ d ∧ d ≤ 11)) Period.weekly
      (some 7) (some 9) = [9] := by decide
example :
    _get_required_dates (fun d => decide (7 ≤ d ∧ d ≤ 18 ∧ d % 7 < 5)) Period.weekly
      (some 7) (some 18) = [11, 18] := by decide
example :
    _get_required_dates (fun d => decide (d % 7 < 5)) Period.daily
      (some 7) (some 11) = [7, 8, 9, 10, 11] := by decide
example :
    _get_required_dates (fun _ => true) Period.hourly (some 7) (some 11) = [] := by
  decide

theorem mem_daysFrom (n : Nat) : ∀ s d : Int, d ∈ daysFrom s n ↔ s ≤ d ∧ d < s + n := by
  induction n with
  | zero =>
      intro s d
      simp only [daysFrom, List.not_mem_nil, false_iff]
      omega
  | succ k ih =>
      intro s d
      rw [show daysFrom s (k + 1) = s :: daysFrom (s + 1) k from rfl,
        List.mem_cons, ih (s + 1) d]
      constructor
      · rintro (rfl | ⟨h1, h2⟩) <;> omega
      · intro h
        by_cases hd : d = s
        · exact Or.inl hd
        · exact Or.inr (by omega)

theorem daysFrom_chain (n : Nat) : ∀ s : Int, (daysFrom s n).Chain' (· < ·) := by
  induction n with
  | zero => intro s; simp [daysFrom]
  | succ k ih =>
      intro s
      rw [show daysFrom s (k + 1) = s :: daysFrom (s + 1) k from rfl,
        List.chain'_iff_pairwise, List.pairwise_cons]
      refine ⟨?_, List.chain'_iff_pairwise.mp (ih (s + 1))⟩
      intro y hy
      have := (mem_daysFrom k (s + 1) y).mp hy
      omega

theorem mem_tradingDaysIn (cal : Int → Bool) (s e d : Int) :
    d ∈ tradingDaysIn cal s e ↔ cal d = true ∧ s ≤ d ∧ d ≤ e := by
  unfold tradingDaysIn
  rw [List.mem_filter, mem_daysFrom]
  constructor
  · rintro ⟨⟨h1, h2⟩, hc⟩
    exact ⟨hc, h1, by omega⟩
  · rintro ⟨hc, h1, h2⟩
    exact ⟨⟨h1, by omega⟩, hc⟩

theorem tradingDaysIn_chain (cal : Int → Bool) (s e : Int) :
    (tradingDaysIn cal s e).Chain' (· < ·) := by
  rw [List.chain'_iff_pairwise]
  exact List.Pairwise.filter _ (List.chain'_iff_pairwise.mp (daysFrom_chain _ _))

theorem weekMonday_mono {a b : Int} (h : a ≤ b) : weekMonday a ≤ weekMonday b := by
  unfold weekMonday
  omega

/-- Membership in the weekly fold with an open week `(cws, cwe)`, where
`cwe`'s Monday is `cws` and every remaining trading day is later than `cwe`:
a date is emitted iff it is the tracked day `cwe` and no remaining day falls
in week `cws`, or it is a remaining day that is the last of its week among
the remaining days. -/
theorem weeklyGroup_mem_some (t : List Int) (hch : t.Chain' (· < ·)) :
    ∀ cws cwe : Int, weekMonday cwe = cws → (∀ x ∈ t, cwe < x) →
      ∀ d : Int, d ∈ weeklyGroup t (some (cws, cwe)) ↔
        ((d = cwe ∧ ∀ x ∈ t, weekMonday x ≠ cws) ∨
          (d ∈ t ∧ ∀ x ∈ t, weekMonday x = weekMonday d → x ≤ d)) := by
  induction t with
  | nil =>
      intro cws cwe hwm _ d
      simp [weeklyGroup]
  | cons x rest ih =>
      intro cws cwe hwm hlt d
      have hpw : (x :: rest).Pairwise (· < ·) := List.chain'_iff_pairwise.mp hch
      have hxlt : ∀ y ∈ rest, x < y := (List.pairwise_cons.mp hpw).1
      have hch' : rest.Chain' (· < ·) := hch.tail
      by_cases hwx : weekMonday x = cws
      · have heq : weeklyGroup (x :: rest) (some (cws, cwe)) =
            weeklyGroup rest (some (cws, x)) := by
          simp [weeklyGroup, hwx]
        rw [heq, ih hch' cws x hwx hxlt d]
        constructor
        · rintro (⟨rfl, hno⟩ | ⟨hdr, hlast⟩)
          · refine Or.inr ⟨List.mem_cons_self d rest, ?_⟩
            intro y hy hww
            rcases List.mem_cons.mp hy with rfl | hy'
            · exact le_refl y
            · exact absurd (hww.trans hwx) (hno y hy')
          · refine Or.inr ⟨List.mem_cons_of_mem x hdr, ?_⟩
            intro y hy hww
            rcases List.mem_cons.mp hy with rfl | hy'
            · exact le_of_lt (hxlt d hdr)
            · exact hlast y hy' hww
        · rintro (⟨rfl, hno⟩ | ⟨hdm, hlast⟩)
          · exact absurd hwx (hno x (List.mem_cons_self x rest))
          · rcases List.mem_cons.mp hdm with rfl | hd'
            · refine Or.inl ⟨rfl, ?_⟩
              intro y hy hc
              exact absurd (hlast y (List.mem_cons_of_mem d hy) (hc.trans hwx.symm))
                (not_le.mpr (hxlt y hy))
            · exact Or.inr ⟨hd', fun y hy hww => hlast y (List.mem_cons_of_mem x hy) hww⟩
      · have hcle : cws ≤ weekMonday x := by
          have h1 : weekMonday cwe ≤ weekMonday x :=
            weekMonday_mono (le_of_lt (hlt x (List.mem_cons_self x rest)))
          rw [hwm] at h1
          exact h1
        have hnocws : ∀ y ∈ x :: rest, weekMonday y ≠ cws := by
          intro y hy
          rcases List.mem_cons.mp hy with rfl | hy'
          · exact hwx
          · have h2 : weekMonday x ≤ weekMonday y :=
              weekMonday_mono (le_of_lt (hxlt y hy'))
            intro hc
            exact hwx (le_antisymm (hc ▸ h2) hcle)
        have heq : weeklyGroup (x :: rest) (some (cws, cwe)) =
            cwe :: weeklyGroup rest (some (weekMonday x, x)) := by
          simp [weeklyGroup, hwx]
        rw [heq, List.mem_cons, ih hch' (weekMonday x) x rfl hxlt d]
        constructor
        · rintro (rfl | ⟨rfl, hno⟩ | ⟨hdr, hlast⟩)
          · exact Or.inl ⟨rfl, hnocws⟩
          · refine Or.inr ⟨List.mem_cons_self d rest, ?_⟩
            intro y hy hww
            rcases List.mem_cons.mp hy with rfl | hy'
            · exact le_refl y
            · exact absurd hww (hno y hy')
          · refine Or.inr ⟨List.mem_cons_of_mem x hdr, ?_⟩
            intro y hy hww
            rcases List.mem_cons.mp hy with rfl | hy'
            · exact le_of_lt (hxlt d hdr)
            · exact hlast y hy' hww
        · rintro (⟨rfl, _⟩ | ⟨hdm, hlast⟩)
          · exact Or.inl rfl
          · rcases List.mem_cons.mp hdm with rfl | hd'
            · refine Or.inr (Or.inl ⟨rfl, ?_⟩)
              intro y hy hc
              exact absurd (hlast y (List.mem_cons_of_mem d hy) hc)
                (not_le.mpr (hxlt y hy))
            · exact Or.inr (Or.inr ⟨hd', fun y hy hww =>
                hlast y (List.mem_cons_of_mem x hy) hww⟩)

/-- Membership in the weekly fold over a sorted trading-day list: a date is
emitted iff it is a trading day that is the last trading day of its week. -/
theorem weeklyGroup_mem (t : List Int) (hch : t.Chain' (· < ·)) (d : Int) :
    d ∈ weeklyGroup t none ↔
      (d ∈ t ∧ ∀ x ∈ t, weekMonday x = weekMonday d → x ≤ d) := by
  cases t with
  | nil => simp [weeklyGroup]
  | cons x rest =>
      have hpw : (x :: rest).Pairwise (· < ·) := List.chain'_iff_pairwise.mp hch
      have hxlt : ∀ y ∈ rest, x < y := (List.pairwise_cons.mp hpw).1
      have hch' : rest.Chain' (· < ·) := hch.tail
      have heq : weeklyGroup (x :: rest) none =
          weeklyGroup rest (some (weekMonday x, x)) := by simp [weeklyGroup]
      rw [heq, weeklyGroup_mem_some rest hch' (weekMonday x) x rfl hxlt d]
      constructor
      · rintro (⟨rfl, hno⟩ | ⟨hdr, hlast⟩)
        · refine ⟨List.mem_cons_self d rest, ?_⟩
          intro y hy hww
          rcases List.mem_cons.mp hy with rfl | hy'
          · exact le_refl y
          · exact absurd hww (hno y hy')
        · refine ⟨List.mem_cons_of_mem x hdr, ?_⟩
          intro y hy hww
          rcases List.mem_cons.mp hy with rfl | hy'
          · exact le_of_lt (hxlt d hdr)
          · exact hlast y hy' hww
      · rintro ⟨hdm, hlast⟩
        rcases List.mem_cons.mp hdm with rfl | hd'
        · refine Or.inl ⟨rfl, ?_⟩
          intro y hy hc
          exact absurd (hlast y (List.mem_cons_of_mem d hy) hc)
            (not_le.mpr (hxlt y hy))
        · exact Or.inr ⟨hd', fun y hy hww => hlast y (List.mem_cons_of_mem x hy) hww⟩

/-- Modelled from the claim's wording, for comparison only: the true last
session date of the week containing `d` — the greatest calendar session
among the seven days of that week, independent of any requested window. -/
def specWeekLastSession (cal : Int → Bool) (d : Int) : Option Int :=
  ((daysFrom (weekMonday d) 7).filter cal).getLast?

/-- C5 counterexample: with the calendar trading on days 7..11 (a full
Monday-to-Friday week) and the window [7, 9], the weekly required set is
[9]: the week contributes the point 9 even though the week's true last
session date is 11, which falls after the requested end 9 — the claim says
such a week contributes no point. -/
theorem C5_counterexample :
    _get_required_dates (fun d => decide (7 ≤ d ∧ d ≤ 11)) Period.weekly
        (some 7) (some 9) = [9] ∧
      specWeekLastSession (fun d => decide (7 ≤ d ∧ d ≤ 11)) 9 = some 11 ∧
      ¬((11 : Int) ≤ 9) := by decide

/-- C5 (amended): for every window the weekly required point set contains
exactly, for each week having at least one session inside [start, end], the
last session date of that week that lies within the window — the schedule
is computed over the window only, so a week truncated by the requested end
still contributes its last in-window session date even when the week's true
last session date falls after the end. -/
theorem C5_weekly_required (cal : Int → Bool) (s e d : Int) :
    d ∈ _get_required_dates cal Period.weekly (some s) (some e) ↔
      (cal d = true ∧ s ≤ d ∧ d ≤ e ∧
        ∀ x : Int, cal x = true → s ≤ x → x ≤ e →
          weekMonday x = weekMonday d → x ≤ d) := by
  simp only [_get_required_dates]
  by_cases hse : s > e
  · rw [if_pos hse]
    constructor
    · intro h
      exact absurd h (List.not_mem_nil d)
    · rintro ⟨_, h1, h2, _⟩
      omega
  · rw [if_neg hse]
    rw [(List.perm_insertionSort _ _).mem_iff, List.mem_filter,
      weeklyGroup_mem _ (tradingDaysIn_chain cal s e) d]
    constructor
    · rintro ⟨⟨hdt, hlast⟩, hrange⟩
      obtain ⟨hcal, h1, h2⟩ := (mem_tradingDaysIn cal s e d).mp hdt
      refine ⟨hcal, h1, h2, ?_⟩
      intro x hx hxs hxe hww
      exact hlast x ((mem_tradingDaysIn cal s e x).mpr ⟨hx, hxs, hxe⟩) hww
    · rintro ⟨hcal, h1, h2, hlast⟩
      refine ⟨⟨(mem_tradingDaysIn cal s e d).mpr ⟨hcal, h1, h2⟩, ?_⟩, ?_⟩
      · intro x hx hww
        obtain ⟨hxc, hxs, hxe⟩ := (mem_tradingDaysIn cal s e x).mp hx
        exact hlast x hxc hxs hxe hww
      · simp [h1, h2]

/-- The externally visible effects of one `get_stock_data` call, in order. -/
inductive Effect
  | cacheRead (ns : CacheNS)
  | dbQuery (sd ed : Option Int)
  | providerFetch (sd ed : Option Int)
  | cacheWrite (ns : CacheNS) (data : Series)
deriving DecidableEq, Repr

/-- `_query_database` (data_service.py:798-861): runs the range query; on any
exception it logs and returns None (lines 859-861), and an empty result set
also returns None (lines 852-854) — a failing durable store and an empty one
are indistinguishable to the caller. The raw query outcome is the oracle
argument. -/
def _query_database (raw : Except Unit Series) : Option Series :=
  match raw with
  | Except.error _ => none
  | Except.ok rows => if rows = [] then none else some rows

/-- The collaborators and clock state one `get_stock_data` call sees. The
oracles are total functions of the query range: `dbRaw` is the raw outcome
behind `_query_database`; `provider` is `fetch_from_akshare`, which returns
None both on exhausted retries and on empty/invalid data
(data_provider.py:334-368, 447-451); `cache`/`pending` are the
GENERAL_CACHE and PENDING_SAVE frames stored for this (ticker, period) key;
`marketDate` is the safe as-of date computed once per call;
`weeklyDefaultEnd` stands for `_get_latest_complete_weekly_end_date`, whose
value depends on wall-clock state. -/
structure Env where
  cal : Int → Bool
  marketDate : Int
  weeklyDefaultEnd : Int
  cache : Option Series
  pending : Option Series
  dbRaw : Option Int → Option Int → Except Unit Series
  provider : Option Int → Option Int → Option Series

/-- `_filter_dataframe_by_date` (data_service.py:34-67): row filter to
`[start, end]`, with the early return when the frame is empty or no bound is
given. -/
def _filter_dataframe_by_date (df : Series) (sd ed : Option Int) : Series :=
  if df = [] ∨ (sd = none ∧ ed = none) then df
  else
    df.filter (fun p =>
      (match sd with | some a => decide (a ≤ p.1) | none => true) &&
      (match ed with | some b => decide (p.1 ≤ b) | none => true))

/-- Effects of `_append_to_pending_save` as seen from the resolver: the
PENDING_SAVE read, then the write of the merged frame when the write is not
refused. -/
def pendingSaveEffects (existing : Option Series) (newData : Series) : List Effect :=
  if newData = [] then []
  else
    Effect.cacheRead CacheNS.pendingSave ::
      (match save_to_redis CacheNS.pendingSave (pendingCombined existing newData) with
       | some _ =>
          [Effect.cacheWrite CacheNS.pendingSave (pendingCombined existing newData)]
       | none => [])

/-- Provider fetches for the still-missing sub-ranges
(data_service.py:205-214): each sub-range is fetched; a None or empty
response contributes nothing (that sub-range is simply omitted). Returns the
non-empty fetched frames in order plus the fetch effects. -/
def fetchStillMissing (provider : Option Int → Option Int → Option Series) :
    List (Int × Int) → List Series × List Effect
  | [] => ([], [])
  | r :: rest =>
      let t := fetchStillMissing provider rest
      match provider (some r.1) (some r.2) with
      | some p =>
          if p = [] then (t.1, Effect.providerFetch (some r.1) (some r.2) :: t.2)
          else (p :: t.1, Effect.providerFetch (some r.1) (some r.2) :: t.2)
      | none => (t.1, Effect.providerFetch (some r.1) (some r.2) :: t.2)

/-- One iteration of the cache-path missing-range loop
(data_service.py:183-214): query the durable store for the range; a
non-empty partial result is kept and the still-missing sub-ranges,
recomputed against it, go to the provider; on None (failure or no rows) the
whole range goes to the provider. Returns (all new frames, remote-only
frames, effects). -/
def processRange (env : Env) (required : List Int) (r : Int × Int) :
    List Series × List Series × List Effect :=
  match _query_database (env.dbRaw (some r.1) (some r.2)) with
  | some d =>
      let reqIn := required.filter (fun x => decide (r.1 ≤ x) && decide (x ≤ r.2))
      let still := _find_missing_date_ranges reqIn (seriesKeys d) env.marketDate
      let fs := fetchStillMissing env.provider still
      (d :: fs.1, fs.1, Effect.dbQuery (some r.1) (some r.2) :: fs.2)
  | none =>
      let fs := fetchStillMissing env.provider [r]
      (fs.1, fs.1, Effect.dbQuery (some r.1) (some r.2) :: fs.2)

/-- The cache-path loop over all missing ranges (data_service.py:183-214). -/
def processMissing (env : Env) (required : List Int) :
    List (Int × Int) → List Series × List Series × List Effect
  | [] => ([], [], [])
  | r :: rest =>
      let h := processRange env required r
      let t := processMissing env required rest
      (h.1 ++ t.1, h.2.1 ++ t.2.1, h.2.2 ++ t.2.2)

/-- The cache-miss-path fetch loop (data_service.py:277-294): a missing
range containing no trading day is skipped without an API call; otherwise
the range is fetched from the provider, keeping non-empty results. -/
def fetchMissingChecked (env : Env) :
    List (Int × Int) → List Series × List Effect
  | [] => ([], [])
  | r :: rest =>
      let t := fetchMissingChecked env rest
      if tradingDaysIn env.cal r.1 r.2 = [] then t
      else
        match env.provider (some r.1) (some r.2) with
        | some p =>
            if p = [] then (t.1, Effect.providerFetch (some r.1) (some r.2) :: t.2)
            else (p :: t.1, Effect.providerFetch (some r.1) (some r.2) :: t.2)
        | none => (t.1, Effect.providerFetch (some r.1) (some r.2) :: t.2)

/-- The cache-hit path of `get_stock_data` (data_service.py:156-241), after
the GENERAL_CACHE read returned the non-empty frame `rd`: an empty required
set or no missing ranges returns the filtered cache frame; otherwise the
missing ranges are resolved against the durable store and provider, and if
anything new arrived it is merged, written back to the general cache, and
remote-only fragments are appended to the write-behind buffer; if nothing
could be fetched the cached frame alone is returned (with a logged
warning). -/
def cacheHitPath (env : Env) (sd ed : Option Int) (required : List Int)
    (rd : Series) : Option Series × List Effect :=
  if required = [] then (some (_filter_dataframe_by_date rd sd ed), [])
  else
    let missing := _find_missing_date_ranges required (seriesKeys rd) env.marketDate
    if missing = [] then (some (_filter_dataframe_by_date rd sd ed), [])
    else
      let pm := processMissing env required missing
      if pm.1 = [] then (some (_filter_dataframe_by_date rd sd ed), pm.2.2)
      else
        let combined := mergeSeries rd pm.1.flatten
        let pendEffs :=
          if pm.2.1 = [] then [] else pendingSaveEffects env.pending pm.2.1.flatten
        (some (_filter_dataframe_by_date combined sd ed),
          pm.2.2 ++ Effect.cacheWrite CacheNS.general combined :: pendEffs)

/-- The cache-miss path of `get_stock_data` (data_service.py:246-350): full
durable-store query; if complete, cache and return it; if partially
complete, fetch the gaps (skipping no-session ranges), append new data to
the write-behind buffer, cache the merged frame and return it; if the
durable store has nothing, fetch the whole window from the provider, buffer
and cache it, or return None (hard failure) when the provider yields
nothing. -/
def cacheMissPath (env : Env) (sd ed : Option Int) (required : List Int) :
    Option Series × List Effect :=
  match _query_database (env.dbRaw sd ed) with
  | some dbd =>
      let missing := _find_missing_date_ranges required (seriesKeys dbd) env.marketDate
      if missing = [] then
        (some (_filter_dataframe_by_date dbd sd ed),
          [Effect.dbQuery sd ed, Effect.cacheWrite CacheNS.general dbd])
      else
        let fc := fetchMissingChecked env missing
        let combined := if fc.1 = [] then dbd else mergeSeries dbd fc.1.flatten
        let pendEffs :=
          if fc.1 = [] then [] else pendingSaveEffects env.pending fc.1.flatten
        (some (_filter_dataframe_by_date combined sd ed),
          Effect.dbQuery sd ed :: fc.2 ++ pendEffs ++
            [Effect.cacheWrite CacheNS.general combined])
  | none =>
      match env.provider sd ed with
      | some p =>
          if p = [] then (none, [Effect.dbQuery sd ed, Effect.providerFetch sd ed])
          else
            (some (_filter_dataframe_by_date p sd ed),
              Effect.dbQuery sd ed :: Effect.providerFetch sd ed ::
                pendingSaveEffects env.pending p ++
                  [Effect.cacheWrite CacheNS.general p])
      | none => (none, [Effect.dbQuery sd ed, Effect.providerFetch sd ed])

/-- The default date window (data_service.py:103-128): applied only when
both dates are omitted; daily ends at the market-aware date minus a 40-day
lookback, weekly ends at the latest complete weekly end date minus a 200-day
lookback; hourly gets no default. -/
def defaultedWindow (env : Env) (period : Period) (sd ed : Option Int) :
    Option Int × Option Int :=
  match sd, ed with
  | none, none =>
      match period with
      | Period.daily => (some (env.marketDate - 40), some env.marketDate)
      | Period.weekly =>
          (some (env.weeklyDefaultEnd - 200), some env.weeklyDefaultEnd)
      | Period.hourly => (none, none)
  | _, _ => (sd, ed)

/-- End-date clamping to the market-aware safe date
(data_service.py:132-136). -/
def clampEnd (m : Int) : Option Int → Option Int
  | some e => some (if e > m then m else e)
  | none => none

/-- The defaulted-and-clamped window a call actually resolves. -/
def resolvedWindow (env : Env) (period : Period) (sd ed : Option Int) :
    Option Int × Option Int :=
  ((defaultedWindow env period sd ed).1,
    clampEnd env.marketDate (defaultedWindow env period sd ed).2)

/-- The core of `get_stock_data` after defaults and clamping
(data_service.py:138-350): the early return of an empty frame when the
required set is empty and both dates are present (lines 142-148), then the
GENERAL_CACHE read and the cache-hit or cache-miss path. -/
def gsdMain (env : Env) (period : Period) (sd ed : Option Int) :
    Option Series × List Effect :=
  if _get_required_dates env.cal period sd ed = [] ∧ sd ≠ none ∧ ed ≠ none then
    (some [], [])
  else
    match env.cache with
    | some rd =>
        if rd = [] then
          let t := cacheMissPath env sd ed (_get_required_dates env.cal period sd ed)
          (t.1, Effect.cacheRead CacheNS.general :: t.2)
        else
          let t := cacheHitPath env sd ed (_get_required_dates env.cal period sd ed) rd
          (t.1, Effect.cacheRead CacheNS.general :: t.2)
    | none =>
        let t := cacheMissPath env sd ed (_get_required_dates env.cal period sd ed)
        (t.1, Effect.cacheRead CacheNS.general :: t.2)

/-- `get_stock_data(db, ticker, period, start_date, end_date)`
(data_service.py:70-350), for a fixed (ticker, period) key: apply the
default window, clamp the end date to the market-aware safe date, and run
the tiered resolution. Returns the resulting frame (None on hard failure)
and the effect trace. -/
def get_stock_data (env : Env) (period : Period) (sd0 ed0 : Option Int) :
    Option Series × List Effect :=
  gsdMain env period (resolvedWindow env period sd0 ed0).1
    (resolvedWindow env period sd0 ed0).2

theorem required_hourly (cal : Int → Bool) (sd ed : Option Int) :
    _get_required_dates cal Period.hourly sd ed = [] := by
  cases sd with
  | none => rfl
  | some s =>
      cases ed with
      | none => rfl
      | some e =>
          simp only [_get_required_dates]
          split <;> rfl

/-- C3: a resolve request with both dates given whose required point set
(computed for the clamped window) is empty returns an empty series
immediately — not an error — performing no cache read or write, no
durable-store query, and no provider fetch (the effect trace is empty). -/
theorem C3_empty_required (env : Env) (period : Period) (s e : Int)
    (h : _get_required_dates env.cal period (some s)
        (clampEnd env.marketDate (some e)) = []) :
    get_stock_data env period (some s) (some e) = (some [], []) := by
  have hw : resolvedWindow env period (some s) (some e) =
      (some s, clampEnd env.marketDate (some e)) := rfl
  unfold get_stock_data
  rw [hw]
  unfold gsdMain
  rw [if_pos ⟨h, by simp, by simp [clampEnd]⟩]

/-- An environment whose calendar has no sessions but whose cache, durable
store and provider all hold data: the early return must touch none of
them. -/
def c3Env : Env :=
  { cal := fun _ => false
    marketDate := 10
    weeklyDefaultEnd := 10
    cache := some [(1, 1)]
    pending := some [(1, 1)]
    dbRaw := fun _ _ => Except.ok [(1, 1)]
    provider := fun _ _ => some [(1, 1)] }

theorem C3_empty_required_witness :
    get_stock_data c3Env Period.daily (some 5) (some 6) = (some [], []) :=
  C3_empty_required c3Env Period.daily 5 6 (by decide)

/-- An hourly-serving environment: cache holds one point, the other tiers
fail. -/
def c10Env : Env :=
  { cal := fun _ => true
    marketDate := 10
    weeklyDefaultEnd := 10
    cache := some [(5, 42)]
    pending := none
    dbRaw := fun _ _ => Except.error ()
    provider := fun _ _ => none }

/-- C10: for every hourly request with both dates given, the hourly required
point set is empty by construction, so the resolver returns an empty series
immediately with no cache, durable-store or provider access; with a date
omitted the guard cannot fire and hourly data is served — here straight from
a non-empty cache entry. -/
theorem C10_hourly_guard (env : Env) (s e : Int) :
    _get_required_dates env.cal Period.hourly (some s)
        (clampEnd env.marketDate (some e)) = [] ∧
    get_stock_data env Period.hourly (some s) (some e) = (some [], []) ∧
    (get_stock_data c10Env Period.hourly none (some 10)).1 = some [(5, 42)] := by
  refine ⟨required_hourly _ _ _, ?_, by decide⟩
  have hw : resolvedWindow env Period.hourly (some s) (some e) =
      (some s, clampEnd env.marketDate (some e)) := rfl
  unfold get_stock_data
  rw [hw]
  unfold gsdMain
  rw [if_pos ⟨required_hourly _ _ _, by simp, by simp [clampEnd]⟩]

theorem fetchStillMissing_nil (provider : Option Int → Option Int → Option Series)
    (h : ∀ a b, provider a b = none) (rs : List (Int × Int)) :
    (fetchStillMissing provider rs).1 = [] := by
  induction rs with
  | nil => rfl
  | cons r rest ih =>
      simp only [fetchStillMissing, h (some r.1) (some r.2)]
      exact ih

theorem processMissing_nil (env : Env) (required : List Int)
    (hprov : ∀ a b, env.provider a b = none)
    (hdb : ∀ a b, env.dbRaw a b = Except.error ()) (ms : List (Int × Int)) :
    (processMissing env required ms).1 = [] ∧
      (processMissing env required ms).2.1 = [] := by
  induction ms with
  | nil => exact ⟨rfl, rfl⟩
  | cons r rest ih =>
      have hr : (processRange env required r).1 = [] ∧
          (processRange env required r).2.1 = [] := by
        unfold processRange
        rw [hdb (some r.1) (some r.2)]
        simp only [_query_database]
        exact ⟨fetchStillMissing_nil env.provider hprov [r],
          fetchStillMissing_nil env.provider hprov [r]⟩
      simp only [processMissing]
      exact ⟨by rw [List.append_eq_nil]; exact ⟨hr.1, ih.1⟩,
        by rw [List.append_eq_nil]; exact ⟨hr.2, ih.2⟩⟩

theorem cacheHitPath_cache_only (env : Env) (sd ed : Option Int)
    (required : List Int) (rd : Series)
    (hprov : ∀ a b, env.provider a b = none)
    (hdb : ∀ a b, env.dbRaw a b = Except.error ())
    (hreq : required ≠ []) :
    (cacheHitPath env sd ed required rd).1 =
      some (_filter_dataframe_by_date rd sd ed) := by
  simp only [cacheHitPath]
  rw [if_neg hreq]
  by_cases hm : _find_missing_date_ranges required (seriesKeys rd) env.marketDate = []
  · rw [if_pos hm]
  · rw [if_neg hm,
      if_pos (processMissing_nil env required hprov hdb
        (_find_missing_date_ranges required (seriesKeys rd) env.marketDate)).1]

theorem gsdMain_cache_only (env : Env) (period : Period) (sd ed : Option Int)
    (rd : Series)
    (hprov : ∀ a b, env.provider a b = none)
    (hdb : ∀ a b, env.dbRaw a b = Except.error ())
    (hcache : env.cache = some rd) (hrd : rd ≠ [])
    (hreq : _get_required_dates env.cal period sd ed ≠ []) :
    (gsdMain env period sd ed).1 = some (_filter_dataframe_by_date rd sd ed) := by
  unfold gsdMain
  rw [if_neg (fun hc => hreq hc.1)]
  simp only [hcache]
  rw [if_neg hrd]
  exact cacheHitPath_cache_only env sd ed _ rd hprov hdb hreq

/-- The claim's failure scenario: required Jan 1..5 (daily), cache holds
Jan 1 and Jan 4, the durable store answers only the (Jan 5, Jan 5) sub-range
query and errors otherwise, and every provider fetch fails after retries. -/
def c4Env : Env :=
  { cal := fun d => decide (1 ≤ d ∧ d ≤ 5)
    marketDate := 5
    weeklyDefaultEnd := 5
    cache := some [(1, 10), (4, 40)]
    pending := none
    dbRaw := fun a b =>
      if a = some 5 ∧ b = some 5 then Except.ok [(5, 50)] else Except.error ()
    provider := fun _ _ => none }

/-- Same cache as `c4Env` but with every durable-store query failing too. -/
def c4EnvW : Env :=
  { cal := fun d => decide (1 ≤ d ∧ d ≤ 5)
    marketDate := 5
    weeklyDefaultEnd := 5
    cache := some [(1, 10), (4, 40)]
    pending := none
    dbRaw := fun _ _ => Except.error ()
    provider := fun _ _ => none }

/-- C4: when every provider fetch fails after retries and every durable-store
query fails, a call whose cache tier holds a non-empty frame still returns
the partial series built from the points that were obtained (here the cached
frame, window-filtered) instead of raising — the result is not the
hard-failure None; a durable-store query failure is literally identical to
the durable store returning no rows (`_query_database` maps both to None),
falling through to the provider; and in the claim's scenario — required
Jan 1..5, cache {Jan 1, Jan 4}, durable store supplying only Jan 5,
provider failing for (Jan 2, Jan 3) — the call returns exactly
Jan 1, Jan 4, Jan 5. -/
theorem C4_partial_results (env : Env) (period : Period) (sd0 ed0 : Option Int)
    (rd : Series)
    (hprov : ∀ a b, env.provider a b = none)
    (hdb : ∀ a b, env.dbRaw a b = Except.error ())
    (hcache : env.cache = some rd) (hrd : rd ≠ [])
    (hreq : _get_required_dates env.cal period
        (resolvedWindow env period sd0 ed0).1
        (resolvedWindow env period sd0 ed0).2 ≠ []) :
    (get_stock_data env period sd0 ed0).1 =
        some (_filter_dataframe_by_date rd (resolvedWindow env period sd0 ed0).1
          (resolvedWindow env period sd0 ed0).2) ∧
    (get_stock_data env period sd0 ed0).1 ≠ none ∧
    (∀ err : Unit, _query_database (Except.error err) =
        _query_database (Except.ok ([] : Series))) ∧
    (get_stock_data c4Env Period.daily (some 1) (some 5)).1 =
        some [(1, 10), (4, 40), (5, 50)] := by
  have hmain : (get_stock_data env period sd0 ed0).1 =
      some (_filter_dataframe_by_date rd (resolvedWindow env period sd0 ed0).1
        (resolvedWindow env period sd0 ed0).2) := by
    unfold get_stock_data
    exact gsdMain_cache_only env period _ _ rd hprov hdb hcache hrd hreq
  refine ⟨hmain, ?_, fun err => rfl, by decide⟩
  rw [hmain]
  simp

theorem C4_partial_results_witness :
    (get_stock_data c4Env Period.daily (some 1) (some 5)).1 =
      some [(1, 10), (4, 40), (5, 50)] :=
  (C4_partial_results c4EnvW Period.daily (some 1) (some 5) [(1, 10), (4, 40)]
    (fun _ _ => rfl) (fun _ _ => rfl) rfl (by decide) (by decide)).2.2.2
